import Mathlib

/-!
Shallow embedding of the fylex project browser (src/main.rs) and proofs of the
specification claims about it.

Strings are modelled as `List Char` (Rust `String` / `&str`), machine integers
as `Int` (`i32`) or `Nat` (`usize`).  Filesystem and process effects are made
explicit: each effectful function takes a small environment record describing
the outcome the OS would report (a directory's existence, an external command's
spawn result, a directory listing), and the function's value is computed from
it exactly as the Rust source computes its value from the corresponding calls.
-/

/-! ## String utilities -/

/-- ASCII whitespace test, modelling Rust `char::is_whitespace` on the
characters relevant to this program. -/
def isWs (c : Char) : Bool :=
  c = ' ' ∨ c = '\t' ∨ c = '\n' ∨ c = '\r'

/-- Rust `str::trim`: strip leading and trailing whitespace. -/
def trimChars (s : List Char) : List Char :=
  ((s.dropWhile isWs).reverse.dropWhile isWs).reverse

/-- Rust `str::to_lowercase`, character by character. -/
def toLowerStr (s : List Char) : List Char :=
  s.map Char.toLower

/-- Rust `Path::file_name`: the component after the last separator. -/
def fileName (p : List Char) : List Char :=
  (p.reverse.takeWhile (fun c => !(c = '/'))).reverse

/-- Rust `Path::join`. -/
def joinPath (dir file : List Char) : List Char :=
  dir ++ '/' :: file

/-- Rust `[String]::join(sep)` for a one-character separator. -/
def joinWith (sep : Char) : List (List Char) → List Char
  | [] => []
  | [t] => t
  | t :: ts => t ++ sep :: joinWith sep ts

/-- Byte-lexicographic strict order on strings (Rust `OsStr` `Ord`, restricted
to the character level of the model). -/
def strLt : List Char → List Char → Bool
  | [], [] => false
  | [], _ :: _ => true
  | _ :: _, [] => false
  | a :: as, b :: bs => if a < b then true else if b < a then false else strLt as bs

/-- `pat` occurs at the front of `hay`. -/
def prefixAt : List Char → List Char → Bool
  | [], _ => true
  | _ :: _, [] => false
  | a :: as, b :: bs => a = b && prefixAt as bs

/-- Rust `str::contains`: `pat` is a contiguous substring of `hay`. -/
def containsSub (hay pat : List Char) : Bool :=
  (List.range (hay.length + 1)).any (fun i => prefixAt pat (hay.drop i))

/-- Worker for `wordsOf`; `acc` is the word being accumulated. -/
def wordsAux : List Char → List Char → List (List Char)
  | [], acc => if acc = [] then [] else [acc]
  | c :: cs, acc =>
    if isWs c then (if acc = [] then wordsAux cs [] else acc :: wordsAux cs [])
    else wordsAux cs (acc ++ [c])

/-- Rust `str::split_whitespace`: maximal runs of non-whitespace characters. -/
def wordsOf (s : List Char) : List (List Char) :=
  wordsAux s []

/-! ## Data model (`ProjectConfig`, `Project`, `AppState` from src/main.rs) -/

/-- The persisted sidecar record. -/
structure ProjectConfig where
  name : List Char
  description : List Char
  tags : List (List Char)
  created_at : List Char
deriving DecidableEq

/-- An in-memory catalog entry.  `git_state` holds `1` for clean, `2` for
modified, as in the source. -/
structure Project where
  path : List Char
  cfg : Option ProjectConfig
  git_state : Option Int
deriving DecidableEq

/-- The session state of the interactive loop. -/
structure AppState where
  projects : List Project
  filtered : List Nat
  selected : Nat
  filter_text : List Char
deriving DecidableEq

/-! ## Version-control probe (`git_status_color`) -/

/-- What the OS reports to `git_status_color` for one directory: whether
`dir/.git` exists, and the outcome of spawning `git -C dir status --porcelain`
(`none` when the spawn itself fails, otherwise the exit code and stdout). -/
structure GitEnv where
  hasGitMarker : Bool
  spawn : Option (Int × List Char)
deriving DecidableEq

/-- `git_status_color` from src/main.rs: `None` without a `.git` marker or on a
spawn failure; otherwise `1` (clean) when stdout is empty, else `2`
(modified).  The process exit code is never inspected. -/
def git_status_color (e : GitEnv) : Option Int :=
  if e.hasGitMarker = false then none
  else
    match e.spawn with
    | none => none
    | some pr => if pr.2.isEmpty then some 1 else some 2

/-! ## Config store (`read_config` / `write_config`)

`serde_json` values are modelled by an explicit JSON tree; the textual layer
(`to_string_pretty` / `from_str`) is the external library's bijection between
trees and text and is abstracted away, the derived `Serialize`/`Deserialize`
code for `ProjectConfig` is modelled field by field. -/

/-- A JSON value. -/
inductive Json where
  | null
  | bool (b : Bool)
  | num (n : Int)
  | str (s : List Char)
  | arr (xs : List Json)
  | obj (kvs : List (List Char × Json))

/-- `CONFIG_NAME` from src/main.rs. -/
def CONFIG_NAME : List Char :=
  "fylex.config.json".toList

/-- First binding of a key in an association list (JSON object field lookup,
and also the model of the filesystem as path ↦ stored JSON document). -/
def jLookup (kvs : List (List Char × Json)) (k : List Char) : Option Json :=
  match kvs with
  | [] => none
  | kv :: rest => if kv.1 = k then some kv.2 else jLookup rest k

/-- The derived `Serialize` impl for `ProjectConfig`: a four-field object in
declaration order. -/
def configToJson (c : ProjectConfig) : Json :=
  Json.obj [("name".toList, Json.str c.name),
            ("description".toList, Json.str c.description),
            ("tags".toList, Json.arr (c.tags.map Json.str)),
            ("created_at".toList, Json.str c.created_at)]

/-- Deserialize a JSON string. -/
def asStr : Json → Option (List Char)
  | Json.str s => some s
  | _ => none

/-- Deserialize a JSON array of strings, elementwise. -/
def allStr : List Json → Option (List (List Char))
  | [] => some []
  | j :: js =>
    match asStr j, allStr js with
    | some s, some rest => some (s :: rest)
    | _, _ => none

/-- Deserialize `Vec<String>`. -/
def asStrList : Json → Option (List (List Char))
  | Json.arr xs => allStr xs
  | _ => none

/-- The derived `Deserialize` impl for `ProjectConfig`: require the four named
fields with the right shapes. -/
def configFromJson : Json → Option ProjectConfig
  | Json.obj kvs =>
    match jLookup kvs "name".toList, jLookup kvs "description".toList,
          jLookup kvs "tags".toList, jLookup kvs "created_at".toList with
    | some jn, some jd, some jt, some jc =>
      match asStr jn, asStr jd, asStrList jt, asStr jc with
      | some n, some d, some t, some c =>
        some { name := n, description := d, tags := t, created_at := c }
      | _, _, _, _ => none
    | _, _, _, _ => none
  | _ => none

/-- `write_config` from src/main.rs: store the serialized record at
`dir/CONFIG_NAME`.  The filesystem is the association list `fs`. -/
def write_config (fs : List (List Char × Json)) (dir : List Char)
    (cfg : ProjectConfig) : List (List Char × Json) :=
  (joinPath dir CONFIG_NAME, configToJson cfg) :: fs

/-- `read_config` from src/main.rs: `Ok(None)` when `dir/CONFIG_NAME` does not
exist, `Err` when its contents fail to deserialize, `Ok(Some _)` otherwise. -/
def read_config (fs : List (List Char × Json)) (dir : List Char) :
    Except Unit (Option ProjectConfig) :=
  match jLookup fs (joinPath dir CONFIG_NAME) with
  | none => Except.ok none
  | some j =>
    match configFromJson j with
    | some c => Except.ok (some c)
    | none => Except.error ()

/-! ## Catalog scan (`scan_projects`) -/

instance {ε α : Type} [DecidableEq ε] [DecidableEq α] : DecidableEq (Except ε α) := fun x y =>
  match x, y with
  | Except.ok a, Except.ok b =>
    if h : a = b then isTrue (by rw [h]) else isFalse (by simp [h])
  | Except.error a, Except.error b =>
    if h : a = b then isTrue (by rw [h]) else isFalse (by simp [h])
  | Except.ok _, Except.error _ => isFalse (by simp)
  | Except.error _, Except.ok _ => isFalse (by simp)

/-- What the OS reports for one entry of the root listing: the entry's path,
the result of `entry.file_type()` (`none` = error, otherwise whether it is a
directory), the result `read_config` returned for the entry's directory, and
the version-control probe environment for it. -/
structure DirEntry where
  path : List Char
  fileTypeRes : Option Bool
  cfgRead : Except Unit (Option ProjectConfig)
  gitEnv : GitEnv
deriving DecidableEq

/-- How listing the root went: unlistable as a whole, or a list of per-entry
results (`Except.error` models an erroring `entry_res`). -/
inductive RootListing where
  | unlistable
  | entries (es : List (Except Unit DirEntry))
deriving DecidableEq

/-- The distinct ways `scan_projects` can fail. -/
inductive ScanErr where
  | rootUnlistable
  | entryError
  | fileTypeError
deriving DecidableEq

/-- The loop body of `scan_projects`: `entry_res?` and `entry.file_type()?`
propagate their errors; non-directories are skipped; a directory's config is
`read_config(..).ok().flatten()` and its git state `git_status_color(..)`. -/
def scanEntries : List (Except Unit DirEntry) → Except ScanErr (List Project)
  | [] => Except.ok []
  | Except.error _ :: _ => Except.error ScanErr.entryError
  | Except.ok d :: rest =>
    match d.fileTypeRes with
    | none => Except.error ScanErr.fileTypeError
    | some isDir =>
      if isDir = false then scanEntries rest
      else
        match scanEntries rest with
        | Except.error e => Except.error e
        | Except.ok v =>
          Except.ok ({ path := d.path,
                       cfg := match d.cfgRead with
                              | Except.ok o => o
                              | Except.error _ => none,
                       git_state := git_status_color d.gitEnv } :: v)

/-- Stable insertion by file name for the final `sort_by`. -/
def insertProj (p : Project) : List Project → List Project
  | [] => [p]
  | q :: qs =>
    if strLt (fileName p.path) (fileName q.path) then p :: q :: qs
    else q :: insertProj p qs

/-- `v.sort_by(|a, b| a.path.file_name().cmp(&b.path.file_name()))`. -/
def sortProjects (ps : List Project) : List Project :=
  ps.foldl (fun acc p => insertProj p acc) []

/-- `scan_projects` from src/main.rs over a reported root listing. -/
def scan_projects (r : RootListing) : Except ScanErr (List Project) :=
  match r with
  | RootListing.unlistable => Except.error ScanErr.rootUnlistable
  | RootListing.entries es =>
    match scanEntries es with
    | Except.error e => Except.error e
    | Except.ok v => Except.ok (sortProjects v)

/-! ## Filter and selection (`rebuild_filter`, cursor moves) -/

/-- The lowercase haystack `format!("{name} {tags}")` built in
`rebuild_filter` for one project. -/
def hayOf (p : Project) : List Char :=
  let nm := match p.cfg with
            | some c => toLowerStr c.name
            | none => toLowerStr (fileName p.path)
  let tg := match p.cfg with
            | some c => joinWith ',' (c.tags.map toLowerStr)
            | none => []
  nm ++ ' ' :: tg

/-- The `for (i, p) in state.projects.iter().enumerate()` loop of
`rebuild_filter`: push index `n + j` when project `j` of `ps` matches. -/
def filterIdx (f : List Char) : Nat → List Project → List Nat
  | _, [] => []
  | n, p :: ps =>
    if containsSub (hayOf p) f then n :: filterIdx f (n + 1) ps
    else filterIdx f (n + 1) ps

/-- `rebuild_filter` from src/main.rs: recompute `filtered` from the lowercase
filter text, then clamp `selected` with `saturating_sub`. -/
def rebuild_filter (s : AppState) : AppState :=
  let f := toLowerStr s.filter_text
  let filtered := filterIdx f 0 s.projects
  { s with filtered := filtered,
           selected := if filtered.length ≤ s.selected then filtered.length - 1
                       else s.selected }

/-- The `KEY_UP` arm of the input loop. -/
def moveUp (s : AppState) : AppState :=
  if s.selected > 0 then { s with selected := s.selected - 1 } else s

/-- The `KEY_DOWN` arm of the input loop. -/
def moveDown (s : AppState) : AppState :=
  if s.selected + 1 < s.filtered.length then { s with selected := s.selected + 1 }
  else s

/-- `current_project` from src/main.rs. -/
def current_project (s : AppState) : Option Project :=
  (s.filtered.get? s.selected).bind (fun i => s.projects.get? i)

/-- One cursor/filter operation on the session state. -/
inductive Op where
  | up
  | down
  | filter (t : List Char)
deriving DecidableEq

/-- Apply one operation: the two cursor arms, or setting the filter text and
rebuilding (the shape of every `rebuild_filter` call site in `main`). -/
def applyOp (s : AppState) : Op → AppState
  | Op.up => moveUp s
  | Op.down => moveDown s
  | Op.filter t => rebuild_filter { s with filter_text := t }

/-- The cursor invariant of the specification: `selected` lies in
`[0, max 0 (len - 1)]` and is `0` on an empty visible list. -/
def CursorInv (s : AppState) : Prop :=
  s.selected ≤ max 0 (s.filtered.length - 1) ∧ (s.filtered = [] → s.selected = 0)

/-! ## Project creation (`create_new_project`) and the new-project action -/

/-- What the OS reports to one `create_new_project` call: whether `root/name`
already exists, the spawn outcome of `git init` (`none` = the process could
not be launched, otherwise exit code and output — the source ignores both),
and whether writing the default config succeeds. -/
structure CreateEnv where
  dirExists : Bool
  gitSpawn : Option (Int × List Char)
  writeOk : Bool
deriving DecidableEq

/-- The distinct failures of `create_new_project`. -/
inductive CreateErr where
  | alreadyExists
  | gitInitFailed
  | writeError
deriving DecidableEq

/-- Result and observable side effects of one `create_new_project` call. -/
structure CreateOutcome where
  dirCreated : Bool
  configWritten : Bool
  result : Except CreateErr Unit
deriving DecidableEq

/-- `create_new_project` from src/main.rs: existing path ⇒ error before any
side effect; `create_dir_all`'s own result is discarded (`let _ = ...`);
`.output()` on `git init` propagates a spawn failure with `?` before the
config is written; a successful spawn's exit status is ignored and
`write_default_config` runs. -/
def create_new_project (env : CreateEnv) : CreateOutcome :=
  if env.dirExists then
    { dirCreated := false, configWritten := false,
      result := Except.error CreateErr.alreadyExists }
  else
    match env.gitSpawn with
    | none =>
      { dirCreated := true, configWritten := false,
        result := Except.error CreateErr.gitInitFailed }
    | some _ =>
      if env.writeOk then
        { dirCreated := true, configWritten := true, result := Except.ok () }
      else
        { dirCreated := true, configWritten := false,
          result := Except.error CreateErr.writeError }

/-- The environment one iteration of the input loop may consult: the line the
new-project prompt returned, the world `create_new_project` would see, the
root listing a rescan would see, and whether `open_in_terminal` succeeds. -/
structure LoopEnv where
  promptResult : List Char
  createEnv : CreateEnv
  rescanListing : RootListing
  openOk : Bool
deriving DecidableEq

/-- The `78` (`'N'`) arm of the input loop: empty-after-trim names are
rejected with a flash; on create success the catalog is rescanned (a rescan
error propagates out of `main` via `?`) and refiltered; on create failure
only a flash happens and the state is untouched. -/
def handleNewProject (env : LoopEnv) (s : AppState) : Except ScanErr AppState :=
  if (trimChars env.promptResult).isEmpty then Except.ok s
  else
    match (create_new_project env.createEnv).result with
    | Except.ok _ =>
      match scan_projects env.rescanListing with
      | Except.error e => Except.error e
      | Except.ok ps => Except.ok (rebuild_filter { s with projects := ps })
    | Except.error _ => Except.ok s

/-! ## Description word wrap (`wrap_print`) -/

/-- The mutable locals of `wrap_print`: the lines printed so far, the line
being assembled, the `used` counter, and whether the `break` was taken. -/
structure WrapSt where
  printed : List (List Char)
  line : List Char
  used : Int
  stopped : Bool

/-- One iteration of `wrap_print`'s word loop.  When the pending line would
overflow `width` and is non-empty it is flushed — unless `used >= max_lines`,
in which case the loop `break`s; then the word is appended (with a separating
space on a non-empty line). -/
def wrapWord (width : Nat) (maxLines : Int) (st : WrapSt) (w : List Char) : WrapSt :=
  if st.stopped then st
  else if st.line.length + 1 + w.length > width ∧ st.line ≠ [] then
    if maxLines ≤ st.used then { st with stopped := true }
    else { printed := st.printed ++ [st.line], line := w, used := st.used + 1,
           stopped := false }
  else { st with line := if st.line = [] then w else st.line ++ ' ' :: w }

/-- `wrap_print` from src/main.rs, returning the list of lines it prints:
fold the word loop over `split_whitespace`, then flush the trailing line when
it is non-empty and `used < max_lines`. -/
def wrap_print (text : List Char) (width : Nat) (maxLines : Int) : List (List Char) :=
  let st := (wordsOf text).foldl (wrapWord width maxLines) ⟨[], [], 0, false⟩
  if st.line ≠ [] ∧ st.used < maxLines then st.printed ++ [st.line] else st.printed

/-! ## The input loop (`main`) -/

/-- ncurses `KEY_BACKSPACE`. -/
def keyBackspace : Int := 263

/-- ncurses `KEY_UP`. -/
def keyUp : Int := 259

/-- ncurses `KEY_DOWN`. -/
def keyDown : Int := 258

/-- ncurses `KEY_ENTER`. -/
def keyEnter : Int := 343

/-- How one iteration of the input loop ends. -/
inductive StepOut where
  | cont (s : AppState)
  | quit (s : AppState)
  | fatal (e : ScanErr)
deriving DecidableEq

/-- One iteration of the `loop` in `main`, dispatching on the key `ch` exactly
in the source's arm order: `81` quits; backspace pops the filter; arrows move
the cursor; enter hands off to a terminal when a project is selected (quitting
on success, flashing and continuing on failure); `78` runs the new-project
action; any other key in `32..=126` is appended to the filter text; everything
else is ignored. -/
def mainStep (env : LoopEnv) (s : AppState) (ch : Int) : StepOut :=
  if ch = 81 then StepOut.quit s
  else if ch = 127 ∨ ch = keyBackspace then
    StepOut.cont (rebuild_filter { s with filter_text := s.filter_text.dropLast })
  else if ch = keyUp then StepOut.cont (moveUp s)
  else if ch = keyDown then StepOut.cont (moveDown s)
  else if ch = 10 ∨ ch = keyEnter then
    match current_project s with
    | some _ => if env.openOk then StepOut.quit s else StepOut.cont s
    | none => StepOut.cont s
  else if ch = 78 then
    match handleNewProject env s with
    | Except.ok s2 => StepOut.cont s2
    | Except.error e => StepOut.fatal e
  else if 32 ≤ ch ∧ ch ≤ 126 then
    StepOut.cont (rebuild_filter { s with filter_text := s.filter_text ++ [Char.ofNat ch.toNat] })
  else StepOut.cont s

/-! ## Lemmas: substring test and filter recomputation -/

theorem containsSub_nil (hay : List Char) : containsSub hay [] = true := by
  unfold containsSub
  rw [List.any_eq_true]
  exact ⟨0, by simp, rfl⟩

theorem filterIdx_cons (f : List Char) (p : Project) (ps : List Project) (n : Nat) :
    filterIdx f n (p :: ps) =
      (if containsSub (hayOf p) f = true then n :: filterIdx f (n + 1) ps
       else filterIdx f (n + 1) ps) := rfl

theorem filterIdx_ge (f : List Char) :
    ∀ (ps : List Project) (n i : Nat), i ∈ filterIdx f n ps → n ≤ i
  | [], n, i, h => by
    rw [show filterIdx f n [] = [] from rfl] at h
    cases h
  | p :: ps, n, i, h => by
    rw [filterIdx_cons] at h
    by_cases hc : containsSub (hayOf p) f = true
    · rw [if_pos hc] at h
      rcases List.mem_cons.mp h with h1 | h2
      · omega
      · have := filterIdx_ge f ps (n + 1) i h2
        omega
    · rw [if_neg hc] at h
      have := filterIdx_ge f ps (n + 1) i h
      omega

theorem filterIdx_mem (f : List Char) :
    ∀ (ps : List Project) (n j : Nat) (hj : j < ps.length),
      (n + j ∈ filterIdx f n ps ↔ containsSub (hayOf (ps.get ⟨j, hj⟩)) f = true)
  | [], _, j, hj => by simp at hj
  | p :: ps, n, 0, hj => by
    rw [filterIdx_cons]
    by_cases hc : containsSub (hayOf p) f = true
    · rw [if_pos hc]
      simpa using hc
    · rw [if_neg hc]
      simp only [Nat.add_zero]
      constructor
      · intro h
        have := filterIdx_ge f ps (n + 1) n h
        omega
      · intro h
        exact absurd h hc
  | p :: ps, n, j + 1, hj => by
    rw [filterIdx_cons]
    have hj2 : j < ps.length := by simpa using hj
    have heq : n + (j + 1) = (n + 1) + j := by omega
    have ih := filterIdx_mem f ps (n + 1) j hj2
    rw [show ((p :: ps).get ⟨j + 1, hj⟩ = ps.get ⟨j, hj2⟩) from rfl, ← ih, heq]
    by_cases hc : containsSub (hayOf p) f = true
    · rw [if_pos hc, List.mem_cons]
      constructor
      · rintro (h1 | h2)
        · omega
        · exact h2
      · intro h
        exact Or.inr h
    · rw [if_neg hc]

theorem filterIdx_all (f : List Char)
    (ps : List Project) (hall : ∀ p ∈ ps, containsSub (hayOf p) f = true) :
    ∀ n, filterIdx f n ps = List.range' n ps.length := by
  induction ps with
  | nil => intro n; rfl
  | cons p ps ih =>
    intro n
    rw [filterIdx_cons, if_pos (hall p (by simp))]
    rw [show List.range' n (p :: ps).length = n :: List.range' (n + 1) ps.length from rfl]
    rw [ih (fun q hq => hall q (by simp [hq])) (n + 1)]

theorem rebuild_filtered_eq (s : AppState) :
    (rebuild_filter s).filtered = filterIdx (toLowerStr s.filter_text) 0 s.projects := rfl

theorem rebuild_selected_eq (s : AppState) :
    (rebuild_filter s).selected =
      (if (filterIdx (toLowerStr s.filter_text) 0 s.projects).length ≤ s.selected
       then (filterIdx (toLowerStr s.filter_text) 0 s.projects).length - 1
       else s.selected) := rfl

/-- C4: `rebuild_filter` keeps an index visible exactly when the lowercased
filter text is a contiguous substring of the project's haystack (lowercase
display name, a space, the comma-joined lowercase tags), and an empty filter
text makes `filtered` the full index range `0..projects.length` in order. -/
theorem rebuild_filter_visible (s : AppState) (i : Nat) (hi : i < s.projects.length) :
    (i ∈ (rebuild_filter s).filtered ↔
      containsSub (hayOf (s.projects.get ⟨i, hi⟩)) (toLowerStr s.filter_text) = true) ∧
    (s.filter_text = [] → (rebuild_filter s).filtered = List.range s.projects.length) := by
  constructor
  · rw [rebuild_filtered_eq]
    have h := filterIdx_mem (toLowerStr s.filter_text) s.projects 0 i hi
    rw [Nat.zero_add] at h
    exact h
  · intro ht
    rw [rebuild_filtered_eq, ht]
    rw [show toLowerStr [] = [] from rfl]
    rw [filterIdx_all [] s.projects (fun p _ => containsSub_nil (hayOf p)) 0]
    rw [List.range_eq_range']

def sampleCatalog : List Project :=
  [{ path := "/home/pdc/dev/alpha".toList, cfg := none, git_state := none },
   { path := "/home/pdc/dev/beta".toList,
     cfg := some { name := "beta".toList, description := [], tags := ["infra".toList],
                   created_at := [] },
     git_state := some 1 }]

def sampleState : AppState :=
  { projects := sampleCatalog, filtered := [0, 1], selected := 0,
    filter_text := "fra".toList }

theorem rebuild_filter_visible_w :
    (1 ∈ (rebuild_filter sampleState).filtered ↔
      containsSub (hayOf (sampleState.projects.get ⟨1, by decide⟩))
        (toLowerStr sampleState.filter_text) = true) ∧
    (sampleState.filter_text = [] →
      (rebuild_filter sampleState).filtered = List.range sampleState.projects.length) :=
  rebuild_filter_visible sampleState 1 (by decide)

/-! ## Lemmas: the cursor invariant -/

theorem cursorInv_iff (s : AppState) :
    CursorInv s ↔
      (s.selected ≤ s.filtered.length - 1 ∧ (s.filtered.length = 0 → s.selected = 0)) := by
  unfold CursorInv
  rw [Nat.zero_max, List.length_eq_zero]

theorem cursorInv_rebuild (s : AppState) : CursorInv (rebuild_filter s) := by
  rw [cursorInv_iff]
  rw [show (rebuild_filter s).filtered.length =
        (filterIdx (toLowerStr s.filter_text) 0 s.projects).length from rfl]
  rw [rebuild_selected_eq]
  constructor
  · split <;> omega
  · intro h0
    rw [h0]
    simp

theorem cursorInv_moveUp (s : AppState) (h : CursorInv s) : CursorInv (moveUp s) := by
  obtain ⟨h1, h2⟩ := (cursorInv_iff s).mp h
  rw [cursorInv_iff]
  unfold moveUp
  by_cases hp : s.selected > 0
  · rw [if_pos hp]
    refine ⟨?_, ?_⟩
    · show s.selected - 1 ≤ s.filtered.length - 1
      omega
    · intro hl
      have hl2 : s.filtered.length = 0 := hl
      show s.selected - 1 = 0
      have h3 := h2 hl2
      omega
  · rw [if_neg hp]
    exact ⟨h1, h2⟩

theorem cursorInv_moveDown (s : AppState) (h : CursorInv s) : CursorInv (moveDown s) := by
  obtain ⟨h1, h2⟩ := (cursorInv_iff s).mp h
  rw [cursorInv_iff]
  unfold moveDown
  by_cases hp : s.selected + 1 < s.filtered.length
  · rw [if_pos hp]
    refine ⟨?_, ?_⟩
    · show s.selected + 1 ≤ s.filtered.length - 1
      omega
    · intro hl
      have hl2 : s.filtered.length = 0 := hl
      show s.selected + 1 = 0
      omega
  · rw [if_neg hp]
    exact ⟨h1, h2⟩

theorem cursorInv_applyOp (s : AppState) (o : Op) (h : CursorInv s) :
    CursorInv (applyOp s o) := by
  cases o with
  | up => exact cursorInv_moveUp s h
  | down => exact cursorInv_moveDown s h
  | filter t => exact cursorInv_rebuild _

/-- C5: after any sequence of cursor-move and filter operations from a state
satisfying the cursor invariant, `selected` is still within
`[0, max 0 (filtered.length - 1)]` and is `0` whenever `filtered` is empty. -/
theorem cursor_stays_in_range (ops : List Op) (s : AppState) (h : CursorInv s) :
    CursorInv (ops.foldl applyOp s) := by
  induction ops generalizing s with
  | nil => exact h
  | cons o ops ih => exact ih (applyOp s o) (cursorInv_applyOp s o h)

theorem cursor_stays_in_range_w :
    CursorInv ([Op.down, Op.filter ("fra".toList), Op.up].foldl applyOp sampleState) :=
  cursor_stays_in_range [Op.down, Op.filter ("fra".toList), Op.up] sampleState
    (by constructor <;> decide)

/-- C7: a cursor move clamps to `[0, filtered.length - 1]` with no wraparound,
is a no-op on an empty visible list, and moving down on a one-element visible
list leaves the cursor unchanged. -/
theorem move_cursor_clamps (s : AppState) (h : CursorInv s) :
    (s.filtered = [] → moveUp s = s ∧ moveDown s = s) ∧
    CursorInv (moveUp s) ∧ CursorInv (moveDown s) ∧
    (s.selected = 0 → moveUp s = s) ∧
    (s.selected + 1 = s.filtered.length → moveDown s = s) ∧
    (s.filtered.length = 1 → moveDown s = s) := by
  have hiff := (cursorInv_iff s).mp h
  refine ⟨?_, cursorInv_moveUp s h, cursorInv_moveDown s h, ?_, ?_, ?_⟩
  · intro he
    have h0 : s.selected = 0 := h.2 he
    have hl : s.filtered.length = 0 := by rw [he]; rfl
    constructor
    · unfold moveUp
      rw [if_neg (by omega)]
    · unfold moveDown
      rw [if_neg (by omega)]
  · intro h0
    unfold moveUp
    rw [if_neg (by omega)]
  · intro hlast
    unfold moveDown
    rw [if_neg (by omega)]
  · intro h1
    have h0 : s.selected = 0 := by omega
    unfold moveDown
    rw [if_neg (by omega)]

theorem move_cursor_clamps_w :
    (sampleState.filtered = [] → moveUp sampleState = sampleState ∧
      moveDown sampleState = sampleState) ∧
    CursorInv (moveUp sampleState) ∧ CursorInv (moveDown sampleState) ∧
    (sampleState.selected = 0 → moveUp sampleState = sampleState) ∧
    (sampleState.selected + 1 = sampleState.filtered.length →
      moveDown sampleState = sampleState) ∧
    (sampleState.filtered.length = 1 → moveDown sampleState = sampleState) :=
  move_cursor_clamps sampleState (by constructor <;> decide)

/-! ## Lemmas: config serialization round trip -/

theorem allStr_map (ts : List (List Char)) : allStr (ts.map Json.str) = some ts := by
  induction ts with
  | nil => rfl
  | cons t ts ih => simp [allStr, asStr, ih]

theorem configFromJson_configToJson (c : ProjectConfig) :
    configFromJson (configToJson c) = some c := by
  simp [configToJson, configFromJson, jLookup, asStr, asStrList, allStr_map]

/-- C9: writing a `ProjectConfig` with `write_config` and reading the same
directory back with `read_config` returns the record unchanged — name,
description, tags (order and duplicates), and `created_at` exactly. -/
theorem config_round_trip (fs : List (List Char × Json)) (dir : List Char)
    (cfg : ProjectConfig) :
    read_config (write_config fs dir cfg) dir = Except.ok (some cfg) := by
  unfold read_config write_config
  rw [show jLookup ((joinPath dir CONFIG_NAME, configToJson cfg) :: fs)
        (joinPath dir CONFIG_NAME) = some (configToJson cfg) by simp [jLookup]]
  show (match configFromJson (configToJson cfg) with
        | some c => Except.ok (some c)
        | none => Except.error ()) = Except.ok (some cfg)
  rw [configFromJson_configToJson]

/-! ## C1: version-control init during project creation -/

/-- A world where `root/name` is fresh, the `git` binary cannot be launched,
and writing the config would succeed. -/
def gitDownEnv : CreateEnv :=
  { dirExists := false, gitSpawn := none, writeOk := true }

/-- C1 counterexample: when spawning `git init` fails, `create_new_project`
aborts with an error and the default config is never written (only the
directory remains), so a version-control init failure is not best-effort. -/
theorem git_spawn_failure_aborts_create :
    (create_new_project gitDownEnv).result = Except.error CreateErr.gitInitFailed ∧
    (create_new_project gitDownEnv).configWritten = false ∧
    (create_new_project gitDownEnv).dirCreated = true :=
  ⟨rfl, rfl, rfl⟩

/-- C1 amended: when `root/name` is fresh and the `git init` process can be
launched at all, its exit status is ignored — creation proceeds and the
default config is written exactly when the config write succeeds. -/
theorem git_init_best_effort_when_spawned (env : CreateEnv)
    (hne : env.dirExists = false) (code : Int) (outp : List Char)
    (hsp : env.gitSpawn = some (code, outp)) :
    (create_new_project env).dirCreated = true ∧
    (create_new_project env).configWritten = env.writeOk ∧
    ((create_new_project env).result = Except.ok () ↔ env.writeOk = true) := by
  unfold create_new_project
  rw [hne, hsp]
  cases h : env.writeOk <;> simp [h]

/-- A world where `git init` runs but exits with a failure status. -/
def gitNonZeroEnv : CreateEnv :=
  { dirExists := false, gitSpawn := some (1, "error: cannot init".toList),
    writeOk := true }

theorem git_init_best_effort_when_spawned_w :
    (create_new_project gitNonZeroEnv).dirCreated = true ∧
    (create_new_project gitNonZeroEnv).configWritten = gitNonZeroEnv.writeOk ∧
    ((create_new_project gitNonZeroEnv).result = Except.ok () ↔
      gitNonZeroEnv.writeOk = true) :=
  git_init_best_effort_when_spawned gitNonZeroEnv rfl 1 ("error: cannot init".toList) rfl

/-! ## C2: the version-control probe -/

/-- A directory with a `.git` marker whose probe process runs but exits with a
failure status and empty stdout. -/
def failedProbeEnv : GitEnv :=
  { hasGitMarker := true, spawn := some (128, []) }

/-- C2 counterexample: a probe that exits non-zero with empty stdout is
reported as `Some 1` (clean), not degraded to `None`, so a \"non-zero
unexpected exit\" is misclassified rather than mapped to `None`. -/
theorem failed_probe_reports_clean :
    git_status_color failedProbeEnv = some 1 ∧
    git_status_color failedProbeEnv ≠ none := by
  constructor
  · rfl
  · decide

/-- C2 amended: the probe is `None` exactly when the marker directory is
absent or the probe binary cannot be launched; once the process launches, its
exit status is ignored and only stdout decides: empty stdout ⇒ `Clean` (1),
non-empty ⇒ `Modified` (2). -/
theorem git_status_characterization (e : GitEnv) :
    (e.hasGitMarker = false → git_status_color e = none) ∧
    (e.spawn = none → git_status_color e = none) ∧
    (∀ code sout, e.spawn = some (code, sout) → e.hasGitMarker = true →
      git_status_color e = (if sout.isEmpty then some 1 else some 2)) ∧
    (∀ code code2 sout,
      git_status_color { e with spawn := some (code, sout) } =
        git_status_color { e with spawn := some (code2, sout) }) := by
  refine ⟨?_, ?_, ?_, ?_⟩
  · intro h
    unfold git_status_color
    rw [h]
    simp
  · intro h
    unfold git_status_color
    rw [h]
    simp
  · intro code sout hsp hm
    unfold git_status_color
    rw [hsp, hm]
    simp
  · intro code code2 sout
    unfold git_status_color
    simp

theorem git_status_characterization_w :
    git_status_color { hasGitMarker := false, spawn := none } = none :=
  (git_status_characterization { hasGitMarker := false, spawn := none }).1 rfl

/-! ## C6: AlreadyExists and state preservation on create failure -/

/-- C6: `create_new_project` fails with `AlreadyExists` whenever `root/name`
already denotes an existing path, and whenever the create call fails for any
reason the new-project action returns the session state unchanged (no rescan
happens until one is requested by a successful create). -/
theorem create_already_exists_preserves_state (env : LoopEnv) (s : AppState) :
    (env.createEnv.dirExists = true →
      (create_new_project env.createEnv).result =
        Except.error CreateErr.alreadyExists) ∧
    (∀ e, (create_new_project env.createEnv).result = Except.error e →
      handleNewProject env s = Except.ok s) := by
  constructor
  · intro h
    unfold create_new_project
    rw [h]
    simp
  · intro e he
    unfold handleNewProject
    split
    · rfl
    · rw [he]

/-- A world where `root/foo` already exists and the prompt returned `foo`. -/
def existsEnv : LoopEnv :=
  { promptResult := "foo".toList,
    createEnv := { dirExists := true, gitSpawn := none, writeOk := true },
    rescanListing := RootListing.entries [], openOk := true }

theorem create_already_exists_preserves_state_w :
    (create_new_project existsEnv.createEnv).result =
      Except.error CreateErr.alreadyExists ∧
    handleNewProject existsEnv sampleState = Except.ok sampleState := by
  have h := create_already_exists_preserves_state existsEnv sampleState
  exact ⟨h.1 rfl, h.2 CreateErr.alreadyExists (h.1 rfl)⟩

/-! ## C10: printable keys extend the filter; only uppercase Q/N act -/

/-- C10: in the browsing loop every key code in `32..=126` other than `81`
(`Q`) and `78` (`N`) — in particular `113` (`q`) and `110` (`n`) — is appended
to the filter text followed by a re-filter; `81` quits and `78` runs the
new-project action. -/
theorem printable_key_extends_filter (env : LoopEnv) (s : AppState) (ch : Int)
    (h1 : 32 ≤ ch) (h2 : ch ≤ 126) (hq : ch ≠ 81) (hn : ch ≠ 78) :
    mainStep env s ch =
      StepOut.cont (rebuild_filter
        { s with filter_text := s.filter_text ++ [Char.ofNat ch.toNat] }) ∧
    mainStep env s 81 = StepOut.quit s ∧
    mainStep env s 78 = (match handleNewProject env s with
                         | Except.ok s2 => StepOut.cont s2
                         | Except.error e => StepOut.fatal e) := by
  refine ⟨?_, rfl, ?_⟩
  · unfold mainStep keyBackspace keyUp keyDown keyEnter
    rw [if_neg hq, if_neg (by omega), if_neg (by omega), if_neg (by omega),
        if_neg (by omega), if_neg hn, if_pos ⟨h1, h2⟩]
  · rfl

theorem printable_key_extends_filter_w :
    mainStep existsEnv sampleState 113 =
      StepOut.cont (rebuild_filter
        { sampleState with
          filter_text := sampleState.filter_text ++ [Char.ofNat (Int.toNat 113)] }) :=
  (printable_key_extends_filter existsEnv sampleState 113 (by decide) (by decide)
    (by decide) (by decide)).1

/-! ## C3: scan failure modes -/

theorem mem_insertProj (x p : Project) (l : List Project) :
    x ∈ insertProj p l ↔ x = p ∨ x ∈ l := by
  induction l with
  | nil => simp [insertProj]
  | cons q qs ih =>
    unfold insertProj
    split
    · exact List.mem_cons
    · rw [List.mem_cons, ih, List.mem_cons]
      tauto

theorem mem_foldl_insertProj (x : Project) :
    ∀ (l acc : List Project),
      (x ∈ l.foldl (fun a p => insertProj p a) acc ↔ x ∈ acc ∨ x ∈ l)
  | [], acc => by simp
  | p :: l, acc => by
    rw [List.foldl_cons, mem_foldl_insertProj x l (insertProj p acc),
        mem_insertProj, List.mem_cons]
    tauto

theorem mem_sortProjects (x : Project) (l : List Project) :
    x ∈ sortProjects l ↔ x ∈ l := by
  unfold sortProjects
  rw [mem_foldl_insertProj]
  simp

theorem scanEntries_ok (es : List (Except Unit DirEntry))
    (h : ∀ x ∈ es, ∃ d, x = Except.ok d ∧ d.fileTypeRes ≠ none) :
    ∃ ps, scanEntries es = Except.ok ps ∧
      ∀ p ∈ ps, ∃ d, Except.ok d ∈ es ∧ p.path = d.path ∧
        p.cfg = (match d.cfgRead with
                 | Except.ok o => o
                 | Except.error _ => none) ∧
        p.git_state = git_status_color d.gitEnv := by
  induction es with
  | nil => exact ⟨[], rfl, by simp⟩
  | cons x es ih =>
    obtain ⟨d, hx, hft⟩ := h x (List.mem_cons_self x es)
    subst hx
    obtain ⟨ps, hps, hprop⟩ := ih (fun y hy => h y (List.mem_cons_of_mem _ hy))
    cases hftr : d.fileTypeRes with
    | none => exact absurd hftr hft
    | some isDir =>
      by_cases hd : isDir = false
      · refine ⟨ps, ?_, ?_⟩
        · show (match d.fileTypeRes with
                | none => Except.error ScanErr.fileTypeError
                | some isDir =>
                  if isDir = false then scanEntries es
                  else
                    match scanEntries es with
                    | Except.error e => Except.error e
                    | Except.ok v =>
                      Except.ok ({ path := d.path,
                                   cfg := match d.cfgRead with
                                          | Except.ok o => o
                                          | Except.error _ => none,
                                   git_state := git_status_color d.gitEnv } :: v)) =
            Except.ok ps
          rw [hftr]
          show (if isDir = false then scanEntries es
                else
                  match scanEntries es with
                  | Except.error e => Except.error e
                  | Except.ok v =>
                    Except.ok ({ path := d.path,
                                 cfg := match d.cfgRead with
                                        | Except.ok o => o
                                        | Except.error _ => none,
                                 git_state := git_status_color d.gitEnv } :: v)) =
            Except.ok ps
          rw [if_pos hd, hps]
        · intro p hp
          obtain ⟨d2, hd2, rest⟩ := hprop p hp
          exact ⟨d2, List.mem_cons_of_mem _ hd2, rest⟩
      · refine ⟨{ path := d.path,
                  cfg := match d.cfgRead with
                         | Except.ok o => o
                         | Except.error _ => none,
                  git_state := git_status_color d.gitEnv } :: ps, ?_, ?_⟩
        · show (match d.fileTypeRes with
                | none => Except.error ScanErr.fileTypeError
                | some isDir =>
                  if isDir = false then scanEntries es
                  else
                    match scanEntries es with
                    | Except.error e => Except.error e
                    | Except.ok v =>
                      Except.ok ({ path := d.path,
                                   cfg := match d.cfgRead with
                                          | Except.ok o => o
                                          | Except.error _ => none,
                                   git_state := git_status_color d.gitEnv } :: v)) =
            Except.ok _
          rw [hftr]
          show (if isDir = false then scanEntries es
                else
                  match scanEntries es with
                  | Except.error e => Except.error e
                  | Except.ok v =>
                    Except.ok ({ path := d.path,
                                 cfg := match d.cfgRead with
                                        | Except.ok o => o
                                        | Except.error _ => none,
                                 git_state := git_status_color d.gitEnv } :: v)) =
            Except.ok _
          rw [if_neg hd, hps]
        · intro p hp
          rcases List.mem_cons.mp hp with h1 | h2
          · subst h1
            exact ⟨d, List.mem_cons_self _ _, rfl, rfl, rfl⟩
          · obtain ⟨d2, hd2, rest⟩ := hprop p h2
            exact ⟨d2, List.mem_cons_of_mem _ hd2, rest⟩

/-- C3 amended: `scan_projects` errors when the root is unlistable (and also,
beyond the claim, when reading an entry or its file type fails); whenever
every entry and its file type are readable it succeeds, and each produced
project carries the degraded per-entry values — a failed config read becomes
`cfg = none` and the git probe result is taken as is. -/
theorem scan_failure_modes (r : RootListing) :
    (r = RootListing.unlistable →
      scan_projects r = Except.error ScanErr.rootUnlistable) ∧
    (∀ es, r = RootListing.entries es →
      (∀ x ∈ es, ∃ d, x = Except.ok d ∧ d.fileTypeRes ≠ none) →
      ∃ ps, scan_projects r = Except.ok ps ∧
        ∀ p ∈ ps, ∃ d, Except.ok d ∈ es ∧ p.path = d.path ∧
          p.cfg = (match d.cfgRead with
                   | Except.ok o => o
                   | Except.error _ => none) ∧
          p.git_state = git_status_color d.gitEnv) := by
  constructor
  · intro h
    subst h
    rfl
  · intro es hr h
    subst hr
    obtain ⟨ps, hps, hprop⟩ := scanEntries_ok es h
    refine ⟨sortProjects ps, ?_, ?_⟩
    · show (match scanEntries es with
            | Except.error e => Except.error e
            | Except.ok v => Except.ok (sortProjects v)) =
        Except.ok (sortProjects ps)
      rw [hps]
    · intro p hp
      exact hprop p ((mem_sortProjects p ps).mp hp)

/-- A listable root whose single entry's `file_type()` call fails. -/
def badTypeEntry : DirEntry :=
  { path := "/home/pdc/dev/x".toList, fileTypeRes := none,
    cfgRead := Except.ok none,
    gitEnv := { hasGitMarker := false, spawn := none } }

/-- C3 counterexample: one entry-level `file_type` failure aborts the whole
scan with an error even though the root itself was listed successfully. -/
theorem entry_filetype_error_aborts_scan :
    scan_projects (RootListing.entries [Except.ok badTypeEntry]) =
      Except.error ScanErr.fileTypeError ∧
    RootListing.entries [Except.ok badTypeEntry] ≠ RootListing.unlistable := by
  constructor
  · rfl
  · decide

/-- An entry whose directory has an unreadable/unparseable config. -/
def cfgErrEntry : DirEntry :=
  { path := "/home/pdc/dev/a".toList, fileTypeRes := some true,
    cfgRead := Except.error (),
    gitEnv := { hasGitMarker := false, spawn := none } }

theorem scan_failure_modes_w :
    ∃ ps, scan_projects (RootListing.entries [Except.ok cfgErrEntry]) =
        Except.ok ps ∧
      ∀ p ∈ ps, ∃ d, Except.ok d ∈ ([Except.ok cfgErrEntry] :
          List (Except Unit DirEntry)) ∧ p.path = d.path ∧
        p.cfg = (match d.cfgRead with
                 | Except.ok o => o
                 | Except.error _ => none) ∧
        p.git_state = git_status_color d.gitEnv :=
  (scan_failure_modes (RootListing.entries [Except.ok cfgErrEntry])).2
    [Except.ok cfgErrEntry] rfl
    (by
      intro x hx
      rw [List.mem_singleton] at hx
      exact ⟨cfgErrEntry, hx, by decide⟩)

/-! ## C8: word wrap never splits words and respects the height budget -/

theorem joinWith_cons_cons (sep : Char) (a b : List Char) (l : List (List Char)) :
    joinWith sep (a :: b :: l) = a ++ sep :: joinWith sep (b :: l) := rfl

theorem joinWith_append_single (sep : Char) (w : List Char) :
    ∀ (cur : List (List Char)), cur ≠ [] →
      joinWith sep (cur ++ [w]) = joinWith sep cur ++ sep :: w
  | [], h => absurd rfl h
  | [_], _ => rfl
  | x :: y :: l, _ => by
    have ih := joinWith_append_single sep w (y :: l) (by simp)
    show joinWith sep (x :: ((y :: l) ++ [w])) =
      (x ++ sep :: joinWith sep (y :: l)) ++ sep :: w
    rw [show (y :: l) ++ [w] = y :: (l ++ [w]) from rfl, joinWith_cons_cons,
        show joinWith sep (y :: (l ++ [w])) = joinWith sep ((y :: l) ++ [w]) from rfl,
        ih]
    simp

theorem joinWith_eq_nil (sep : Char) :
    ∀ (cur : List (List Char)), (∀ w ∈ cur, w ≠ []) → joinWith sep cur = [] →
      cur = []
  | [], _, _ => rfl
  | [x], hne, h => absurd h (hne x (by simp))
  | x :: y :: l, _, h => by
    rw [joinWith_cons_cons] at h
    exact absurd (List.append_eq_nil.mp h).2 (by simp)

theorem wordsAux_ne_nil :
    ∀ (cs acc : List Char), ∀ w ∈ wordsAux cs acc, w ≠ []
  | [], acc => by
    intro w hw
    unfold wordsAux at hw
    by_cases ha : acc = []
    · rw [if_pos ha] at hw
      cases hw
    · rw [if_neg ha] at hw
      rw [List.mem_singleton] at hw
      subst hw
      exact ha
  | c :: cs, acc => by
    intro w hw
    unfold wordsAux at hw
    by_cases hc : isWs c = true
    · rw [if_pos hc] at hw
      by_cases ha : acc = []
      · rw [if_pos ha] at hw
        exact wordsAux_ne_nil cs [] w hw
      · rw [if_neg ha] at hw
        rcases List.mem_cons.mp hw with h1 | h2
        · subst h1
          exact ha
        · exact wordsAux_ne_nil cs [] w h2
    · rw [if_neg hc] at hw
      exact wordsAux_ne_nil cs (acc ++ [c]) w hw

theorem wordsOf_ne_nil (s : List Char) : ∀ w ∈ wordsOf s, w ≠ [] :=
  wordsAux_ne_nil s []

/-- Invariant of the word loop of `wrap_print` after processing the words
`ps`: the printed lines are space-joins of non-empty runs (`chunks`) of
consecutive processed words, the pending line is the join of the current run
`cur`, all words involved are non-empty, and the `used` counter equals the
number of printed lines and stays within `[0, max 0 m]`; after a `break`
(`stopped`), `m ≤ used` and some suffix of `ps` was dropped. -/
def WrapInv (m : Int) (ps : List (List Char)) (st : WrapSt) : Prop :=
  ∃ (chunks : List (List (List Char))) (cur : List (List Char)),
    st.printed = chunks.map (joinWith ' ') ∧
    st.line = joinWith ' ' cur ∧
    (∀ c ∈ chunks, c ≠ []) ∧
    (∀ w ∈ cur, w ≠ []) ∧
    (st.stopped = false → chunks.flatten ++ cur = ps) ∧
    (st.stopped = true → m ≤ st.used ∧ ∃ t, chunks.flatten ++ (cur ++ t) = ps) ∧
    0 ≤ st.used ∧ (st.printed.length : Int) = st.used ∧ st.used ≤ max 0 m

theorem wrapWord_inv (width : Nat) (m : Int) (ps : List (List Char)) (st : WrapSt)
    (w : List Char) (hw : w ≠ []) (h : WrapInv m ps st) :
    WrapInv m (ps ++ [w]) (wrapWord width m st w) := by
  obtain ⟨chunks, cur, hout, hline, hcne, hcurne, hrun, hstop, hu0, hlen, hum⟩ := h
  unfold wrapWord
  by_cases hst : st.stopped = true
  · rw [if_pos hst]
    obtain ⟨hmu, t, ht⟩ := hstop hst
    refine ⟨chunks, cur, hout, hline, hcne, hcurne, ?_, ?_, hu0, hlen, hum⟩
    · intro hf
      rw [hf] at hst
      exact Bool.noConfusion hst
    · intro _
      refine ⟨hmu, t ++ [w], ?_⟩
      rw [show cur ++ (t ++ [w]) = (cur ++ t) ++ [w] from
            (List.append_assoc cur t [w]).symm,
          show chunks.flatten ++ ((cur ++ t) ++ [w]) =
            (chunks.flatten ++ (cur ++ t)) ++ [w] from
            (List.append_assoc chunks.flatten (cur ++ t) [w]).symm,
          ht]
  · rw [if_neg hst]
    have hstf : st.stopped = false := by
      cases hx : st.stopped
      · rfl
      · exact absurd hx hst
    have hrun2 : chunks.flatten ++ cur = ps := hrun hstf
    by_cases hov : (st.line.length + 1 + w.length > width ∧ st.line ≠ [])
    · rw [if_pos hov]
      by_cases hml : m ≤ st.used
      · rw [if_pos hml]
        refine ⟨chunks, cur, hout, hline, hcne, hcurne, ?_, ?_, hu0, hlen, hum⟩
        · intro hf
          exact Bool.noConfusion hf
        · intro _
          refine ⟨hml, [w], ?_⟩
          rw [← List.append_assoc, hrun2]
      · rw [if_neg hml]
        have hcur : cur ≠ [] := by
          intro hc
          rw [hc] at hline
          exact hov.2 hline
        refine ⟨chunks ++ [cur], [w], ?_, rfl, ?_, ?_, ?_, ?_, ?_, ?_, ?_⟩
        · show st.printed ++ [st.line] = (chunks ++ [cur]).map (joinWith ' ')
          rw [List.map_append, hout, hline]
          rfl
        · intro c hc
          rcases List.mem_append.mp hc with h1 | h2
          · exact hcne c h1
          · rw [List.mem_singleton] at h2
            subst h2
            exact hcur
        · intro x hx
          rw [List.mem_singleton] at hx
          subst hx
          exact hw
        · intro _
          rw [show (chunks ++ [cur]).flatten = chunks.flatten ++ cur by simp,
              hrun2]
        · intro hf
          exact Bool.noConfusion hf
        · show (0 : Int) ≤ st.used + 1
          omega
        · show ((st.printed ++ [st.line]).length : Int) = st.used + 1
          rw [List.length_append, List.length_singleton]
          push_cast
          omega
        · show st.used + 1 ≤ max 0 m
          have h1 : m ≤ max 0 m := le_max_right 0 m
          have h2 : st.used + 1 ≤ m := by omega
          exact le_trans h2 h1
    · rw [if_neg hov]
      by_cases hle : st.line = []
      · rw [if_pos hle]
        have hcnil : cur = [] :=
          joinWith_eq_nil ' ' cur hcurne (by rw [← hline]; exact hle)
        refine ⟨chunks, [w], hout, rfl, hcne, ?_, ?_, ?_, hu0, hlen, hum⟩
        · intro x hx
          rw [List.mem_singleton] at hx
          subst hx
          exact hw
        · intro _
          have hfl : chunks.flatten = ps := by
            rw [hcnil] at hrun2
            simpa using hrun2
          rw [hfl]
        · intro hf
          rw [hstf] at hf
          exact Bool.noConfusion hf
      · rw [if_neg hle]
        have hcur : cur ≠ [] := by
          intro hc
          rw [hc] at hline
          exact hle hline
        refine ⟨chunks, cur ++ [w], hout, ?_, hcne, ?_, ?_, ?_, hu0, hlen, hum⟩
        · show st.line ++ ' ' :: w = joinWith ' ' (cur ++ [w])
          rw [joinWith_append_single ' ' w cur hcur, hline]
        · intro x hx
          rcases List.mem_append.mp hx with h1 | h2
          · exact hcurne x h1
          · rw [List.mem_singleton] at h2
            subst h2
            exact hw
        · intro _
          rw [← List.append_assoc, hrun2]
        · intro hf
          rw [hstf] at hf
          exact Bool.noConfusion hf

theorem wrapFold_inv (width : Nat) (m : Int) :
    ∀ (ws ps : List (List Char)) (st : WrapSt),
      (∀ w ∈ ws, w ≠ []) → WrapInv m ps st →
      WrapInv m (ps ++ ws) (ws.foldl (wrapWord width m) st)
  | [], ps, st, _, h => by simpa using h
  | w :: ws, ps, st, hws, h => by
    rw [List.foldl_cons]
    have h1 := wrapWord_inv width m ps st w (hws w (List.mem_cons_self w ws)) h
    have h2 := wrapFold_inv width m ws (ps ++ [w]) (wrapWord width m st w)
      (fun x hx => hws x (List.mem_cons_of_mem _ hx)) h1
    rw [List.append_assoc] at h2
    exact h2

/-- C8: `wrap_print` emits at most `max 0 max_lines` lines (so at most
`max_lines` whenever the available height is non-negative), and the emitted
lines are the space-joins of consecutive non-empty runs of the input's
whitespace-split words taken in order from the start — no word is ever split
across lines. -/
theorem wrap_print_whole_words (text : List Char) (width : Nat) (maxLines : Int) :
    ((wrap_print text width maxLines).length : Int) ≤ max 0 maxLines ∧
    (0 ≤ maxLines → ((wrap_print text width maxLines).length : Int) ≤ maxLines) ∧
    ∃ chunks : List (List (List Char)),
      wrap_print text width maxLines = chunks.map (joinWith ' ') ∧
      (∀ c ∈ chunks, c ≠ []) ∧
      ∃ rest, chunks.flatten ++ rest = wordsOf text := by
  have hwne : ∀ w ∈ wordsOf text, w ≠ [] := wordsOf_ne_nil text
  have hinit : WrapInv maxLines [] ⟨[], [], 0, false⟩ := by
    refine ⟨[], [], rfl, rfl, ?_, ?_, ?_, ?_, le_refl 0, rfl, le_max_left 0 maxLines⟩
    · intro c hc
      cases hc
    · intro x hx
      cases hx
    · intro _
      rfl
    · intro hf
      exact Bool.noConfusion hf
  have hfold := wrapFold_inv width maxLines (wordsOf text) [] ⟨[], [], 0, false⟩
    hwne hinit
  rw [List.nil_append] at hfold
  set st := (wordsOf text).foldl (wrapWord width maxLines) ⟨[], [], 0, false⟩
    with hstdef
  have hwp : wrap_print text width maxLines =
      (if st.line ≠ [] ∧ st.used < maxLines then st.printed ++ [st.line]
       else st.printed) := rfl
  obtain ⟨chunks, cur, hout, hline, hcne, hcurne, hrun, hstop, hu0, hlen, hum⟩ :=
    hfold
  by_cases hfl : st.line ≠ [] ∧ st.used < maxLines
  · rw [hwp, if_pos hfl]
    have hcur : cur ≠ [] := by
      intro hc
      rw [hc] at hline
      exact hfl.1 hline
    have hnstop : st.stopped = false := by
      cases hx : st.stopped
      · rfl
      · obtain ⟨hmu, _⟩ := hstop hx
        exfalso
        have h2 := hfl.2
        omega
    have hrun2 := hrun hnstop
    have hlenq : ((st.printed ++ [st.line]).length : Int) = st.used + 1 := by
      rw [List.length_append, List.length_singleton]
      push_cast
      omega
    refine ⟨?_, ?_, chunks ++ [cur], ?_, ?_, [], ?_⟩
    · rw [hlenq]
      have h1 : maxLines ≤ max 0 maxLines := le_max_right 0 maxLines
      have h2 : st.used + 1 ≤ maxLines := by
        have h3 := hfl.2
        omega
      exact le_trans h2 h1
    · intro h0
      rw [hlenq]
      have h2 := hfl.2
      omega
    · rw [List.map_append, hout, hline]
      rfl
    · intro c hc
      rcases List.mem_append.mp hc with h1 | h2
      · exact hcne c h1
      · rw [List.mem_singleton] at h2
        subst h2
        exact hcur
    · rw [List.append_nil,
          show (chunks ++ [cur]).flatten = chunks.flatten ++ cur by simp, hrun2]
  · rw [hwp, if_neg hfl]
    refine ⟨?_, ?_, chunks, hout, hcne, ?_⟩
    · rw [hlen]
      exact hum
    · intro h0
      rw [hlen]
      rw [max_eq_right h0] at hum
      exact hum
    · cases hx : st.stopped
      · exact ⟨cur, hrun hx⟩
      · obtain ⟨_, t, ht⟩ := hstop hx
        exact ⟨cur ++ t, ht⟩

theorem wrap_print_whole_words_w :
    ((wrap_print ("alpha beta gamma".toList) 5 (2 : Int)).length : Int) ≤ 2 :=
  (wrap_print_whole_words ("alpha beta gamma".toList) 5 2).2.1 (by decide)
